import Mathlib

/-!
Verification of the core of a Rust path tracer (raytracer-rs) against its
specification.  The embedding idealizes `f32` as exact real arithmetic; the
two operations whose IEEE behaviour matters to the code paths under study
are modelled explicitly:

* `f32sqrt` returns `none` on a negative input, modelling the NaN produced
  by `f32::sqrt`, which no `Range::contains` test ever accepts;
* `f32div` returns `none` on a zero divisor, modelling the non-finite IEEE
  result (`±inf` or NaN), none of which the intersection range tests accept
  (`+inf < +inf` and every NaN comparison are false in IEEE semantics).

Rust's `Range<f32>` (`start..end`) is half-open: `contains(&x)` is
`start <= x && x < end`.  An upper bound of `f32::INFINITY` is modelled by
`none` in an `Option ℝ` upper bound.
-/

open scoped Classical

noncomputable section

/-- The 3-component `f32` vector of `vec3.rs` (`pub struct Vec3(pub f32, pub f32, pub f32)`),
with fields named after the `x()`, `y()`, `z()` accessors. -/
structure Vec3 where
  x : ℝ
  y : ℝ
  z : ℝ

/-- Rust's `impl Add for Vec3`. -/
def Vec3.add (v u : Vec3) : Vec3 := ⟨v.x + u.x, v.y + u.y, v.z + u.z⟩

/-- Rust's `impl Sub for Vec3`. -/
def Vec3.sub (v u : Vec3) : Vec3 := ⟨v.x - u.x, v.y - u.y, v.z - u.z⟩

/-- Source `Vec3::scale` (also `impl Mul<f32>`): componentwise scalar multiple. -/
def Vec3.scale (a : ℝ) (v : Vec3) : Vec3 := ⟨a * v.x, a * v.y, a * v.z⟩

/-- Rust's `impl Neg for Vec3`: `-v = -1.0 * v`. -/
def Vec3.neg (v : Vec3) : Vec3 := Vec3.scale (-1) v

/-- Source `Vec3::dot`. -/
def Vec3.dot (v u : Vec3) : ℝ := v.x * u.x + v.y * u.y + v.z * u.z

/-- Source `Vec3::norm = sqrt(dot v v)`.  The argument is a sum of squares, hence
nonnegative, so `f32::sqrt` never produces NaN here. -/
def Vec3.norm (v : Vec3) : ℝ := Real.sqrt (Vec3.dot v v)

/-- Source `Vec3::unit v = 1.0 / norm v * v`. -/
def Vec3.unit (v : Vec3) : Vec3 := Vec3.scale (1 / Vec3.norm v) v

/-- Source `Vec3::elem_dot`: componentwise product. -/
def Vec3.elem_dot (v u : Vec3) : Vec3 := ⟨v.x * u.x, v.y * u.y, v.z * u.z⟩

/-- Source `Vec3::reflect(v, n) = v - 2.0 * dot(v, n) * n`. -/
def Vec3.reflect (v n : Vec3) : Vec3 := Vec3.sub v (Vec3.scale (2 * Vec3.dot v n) n)

/-- Model of `f32::sqrt` idealized over exact reals.  A negative input yields `none`,
modelling the IEEE NaN result. -/
def f32sqrt (x : ℝ) : Option ℝ := if x < 0 then none else some (Real.sqrt x)

/-- Exact-real division modelling `f32` division where only finiteness of the
result matters: a zero divisor yields `none` (the IEEE result would be `±inf`
or NaN, and the intersection range tests reject all of those). -/
def f32div (x y : ℝ) : Option ℝ := if y = 0 then none else some (x / y)

/-- Source `Vec3::refract(r, n, eta, eta_prime)` from `vec3.rs`.  The inner
`f32::sqrt(f32::abs(..))` argument is nonnegative, so `Real.sqrt` is faithful. -/
def Vec3.refract (r n : Vec3) (eta eta_prime : ℝ) : Vec3 :=
  let cos_theta := max (min (Vec3.dot (Vec3.neg r) n) 1) (-1)
  let r_out_perpendicular := Vec3.scale (eta / eta_prime) (Vec3.add r (Vec3.scale cos_theta n))
  let r_out_parallel :=
    if cos_theta > 0 then
      Vec3.scale (-(Real.sqrt |1 - Vec3.dot r_out_perpendicular r_out_perpendicular|)) n
    else
      Vec3.scale (Real.sqrt |1 - Vec3.dot r_out_perpendicular r_out_perpendicular|) n
  Vec3.add r_out_perpendicular r_out_parallel

/-- Source `Vec3::lambertian_distribution(normal) = normal + rand_unit()`; the random
unit vector drawn by `Vec3::rand_unit` is passed explicitly as `u`. -/
def Vec3.lambertian_distribution (normal u : Vec3) : Vec3 := Vec3.add normal u

/-- The `Ray` of `ray.rs`. -/
structure Ray where
  start : Vec3
  dir : Vec3

/-- Source `Ray::at(time) = start + time * dir`. -/
def Ray.at (r : Ray) (time : ℝ) : Vec3 := Vec3.add r.start (Vec3.scale time r.dir)

/-- Source `Camera::thread_partition(max, curr_thread, tot_threads)` from `camera.rs`,
returned as the pair (range start, range end).  `u32` arithmetic is modelled by
`ℕ` (no subtraction underflow or division by zero occurs for `tot_threads ≥ 1`,
the regime guaranteed by `available_parallelism`). -/
def thread_partition (max curr_thread tot_threads : ℕ) : ℕ × ℕ :=
  let per_thread := max / tot_threads
  if curr_thread ≠ tot_threads - 1 then
    (per_thread * curr_thread, per_thread * (curr_thread + 1))
  else
    (per_thread * curr_thread, max)

/-- Membership of row `x` in worker `i`'s band (`Range<u32>` membership,
`start <= x && x < end`). -/
def inBand (max tot x i : ℕ) : Prop :=
  (thread_partition max i tot).1 ≤ x ∧ x < (thread_partition max i tot).2

instance (max tot x i : ℕ) : Decidable (inBand max tot x i) := by
  unfold inBand; infer_instance

/-- Number of rows in worker `i`'s band. -/
def bandSize (max tot i : ℕ) : ℕ :=
  (thread_partition max i tot).2 - (thread_partition max i tot).1

/-- The `Color` of `vec3.rs`: a `Vec3` interpreted as linear RGB. -/
structure Color where
  rgb : Vec3

/-- Source `Color::BLACK`. -/
def Color.BLACK : Color := ⟨⟨0, 0, 0⟩⟩

/-- Source `Color::WHITE`. -/
def Color.WHITE : Color := ⟨⟨1, 1, 1⟩⟩

/-- Source `Color::blend(a, b) = elem_dot(a.rgb, b.rgb)`. -/
def Color.blend (a b : Color) : Color := ⟨Vec3.elem_dot a.rgb b.rgb⟩

/-- Rust's `impl Add for Color`. -/
def Color.add (a b : Color) : Color := ⟨Vec3.add a.rgb b.rgb⟩

/-- Rust's `impl Mul<Color> for f32`: componentwise scalar multiple. -/
def Color.smul (a : ℝ) (c : Color) : Color := ⟨Vec3.scale a c.rgb⟩

/-- Source `Color::linera_to_gamma` (name kept from the source): square-root gamma-2
encoding of one linear channel. -/
def linera_to_gamma (c : ℝ) : ℝ := Real.sqrt c

/-- Rust's saturating `f32 as u8` cast: truncation toward zero, clamped to
`[0, 255]` (for the nonnegative finite inputs arising here, truncation is
`Int.floor`; negative inputs saturate to 0 through `Int.toNat`). -/
def asU8 (x : ℝ) : ℕ := min 255 (Int.toNat ⌊x⌋)

/-- The three byte values written by `impl Display for Color`
(`(255.999 * linera_to_gamma channel) as u8` per channel, emitted
whitespace-separated). -/
def colorBytes (c : Color) : ℕ × ℕ × ℕ :=
  (asU8 (255.999 * linera_to_gamma c.rgb.x),
   asU8 (255.999 * linera_to_gamma c.rgb.y),
   asU8 (255.999 * linera_to_gamma c.rgb.z))

/-- The per-channel byte of the specification's words: `round(255.999 *
sqrt(linear_channel))`.  Stated only to be compared with `colorBytes`, which is
the code's truncating cast. -/
def specRoundByte (c : ℝ) : ℤ := round (255.999 * Real.sqrt c)

/-- The `MaterialType` tag of `material.rs`. -/
inductive MaterialType where
  | Metal
  | Lambertian
  | Dielectric

/-- The `Material` struct of `material.rs`. -/
structure Material where
  material : MaterialType
  solid_color : Color
  refraction_index : ℝ
  fuzz : Option ℝ

/-- Source `Material::metal`. -/
def Material.metal (solid_color : Color) (fuzz : Option ℝ) : Material :=
  ⟨MaterialType.Metal, solid_color, 1, fuzz⟩

/-- Source `Material::lambertian`. -/
def Material.lambertian (solid_color : Color) (fuzz : Option ℝ) : Material :=
  ⟨MaterialType.Lambertian, solid_color, 1, fuzz⟩

/-- Source `Material::dielectric`. -/
def Material.dielectric (refraction_index : ℝ) (fuzz : Option ℝ) : Material :=
  ⟨MaterialType.Dielectric, Color.WHITE, refraction_index, fuzz⟩

/-- The `Scatter` outcome of `material.rs`. -/
inductive Scatter where
  | Absorbed (solid_color : Color)
  | Scattered (direction : Vec3) (att : Color)

/-- The `HitRecord` of `hit.rs`; `front_face` is kept as the proposition the
source's boolean decides. -/
structure HitRecord where
  p : Vec3
  normal : Vec3
  t : ℝ
  front_face : Prop
  material : Material

/-- Source `HitRecord::new`: stores the inputs unchanged and derives
`front_face = dot(ray.dir, normal) < 0.0`. -/
def HitRecord.new (p normal : Vec3) (t : ℝ) (material : Material) (ray : Ray) : HitRecord :=
  ⟨p, normal, t, Vec3.dot ray.dir normal < 0, material⟩

/-- The `Sphere` of `sphere.rs`. -/
structure Sphere where
  center : Vec3
  radius : ℝ
  material : Material

/-- Quantity `oc = r.start - self.center` in `Sphere::hit`. -/
def sphereOC (s : Sphere) (r : Ray) : Vec3 := Vec3.sub r.start s.center

/-- Quantity `a = dot(r.dir, r.dir)` in `Sphere::hit`. -/
def sphereA (r : Ray) : ℝ := Vec3.dot r.dir r.dir

/-- Quantity `half_b = dot(r.dir, oc)` in `Sphere::hit`. -/
def sphereHalfB (s : Sphere) (r : Ray) : ℝ := Vec3.dot r.dir (sphereOC s r)

/-- Quantity `c = dot(oc, oc) - radius * radius` in `Sphere::hit`. -/
def sphereC (s : Sphere) (r : Ray) : ℝ :=
  Vec3.dot (sphereOC s r) (sphereOC s r) - s.radius * s.radius

/-- Quantity `discriminant = half_b * half_b - a * c` in `Sphere::hit`. -/
def sphereDisc (s : Sphere) (r : Ray) : ℝ :=
  sphereHalfB s r * sphereHalfB s r - sphereA r * sphereC s r

/-- Comparison of a candidate parameter against the (possibly infinite) upper
end of the acceptance range: `x < m`, trivially true for `f32::INFINITY`. -/
def ltOpt (x : ℝ) : Option ℝ → Prop
  | none => True
  | some m => x < m

/-- The record `Sphere::hit` builds for an accepted root:
`p = r.at(root)`, `normal = 1.0 / radius * (p - center)`, passed through
`HitRecord::new`. -/
def hitRecordAt (s : Sphere) (r : Ray) (root : ℝ) : HitRecord :=
  HitRecord.new (r.at root)
    (Vec3.scale (1 / s.radius) (Vec3.sub (r.at root) s.center)) root s.material r

/-- The accepted-root branch of `Sphere::hit`: a root (NaN or non-finite
modelled as `none`) is checked against `t_range.contains`
(`t_min <= root && root < t_max`), and on success the hit record is built. -/
def tryRoot (s : Sphere) (r : Ray) (lo : ℝ) (hi : Option ℝ) : Option ℝ → Option HitRecord
  | none => none
  | some root =>
      if lo ≤ root ∧ ltOpt root hi then some (hitRecordAt s r root) else none

/-- Source `Sphere::hit` from `sphere.rs`: compute the discriminant, try the root
`-(half_b + sqrtd) / a` first, then `(-half_b + sqrtd) / a`, and report no hit
if neither lies in the acceptance range.  The range is Rust's half-open
`t_min..t_max`; `hi = none` models the `f32::INFINITY` upper bound. -/
def Sphere.hit (s : Sphere) (r : Ray) (lo : ℝ) (hi : Option ℝ) : Option HitRecord :=
  let sqrtd := f32sqrt (sphereDisc s r)
  let root1 := Option.bind sqrtd (fun d => f32div (-(sphereHalfB s r + d)) (sphereA r))
  let root2 := Option.bind sqrtd (fun d => f32div (-sphereHalfB s r + d) (sphereA r))
  match tryRoot s r lo hi root1 with
  | some record => some record
  | none => tryRoot s r lo hi root2

/-- One step of the closest-hit scan in `ray_color` (`main.rs`): state is
`(max_t, hit)`; a successful test lowers the upper bound to the hit's `t`. -/
def scanStep (r : Ray) (st : Option ℝ × Option HitRecord) (s : Sphere) :
    Option ℝ × Option HitRecord :=
  match Sphere.hit s r 0.001 st.1 with
  | some s_hit => (some s_hit.t, some s_hit)
  | none => st

/-- The closest-hit scan of `ray_color` (`main.rs`): fold over the world with
initial `max_t = f32::INFINITY` (modelled `none`) and no hit. -/
def findClosestHit (world : List Sphere) (r : Ray) : Option HitRecord :=
  (world.foldl (scanStep r) (none, none)).2

/-- A sphere's hit against the full acceptance range `0.001..f32::INFINITY`
used by the first test of the scan. -/
def fullHit (s : Sphere) (r : Ray) : Option HitRecord := Sphere.hit s r 0.001 none

/-- The first candidate root `-(half_b + sqrtd) / a` of `Sphere::hit`
(meaningful when the discriminant is nonnegative and `a ≠ 0`). -/
def sphereT1 (s : Sphere) (r : Ray) : ℝ :=
  -(sphereHalfB s r + Real.sqrt (sphereDisc s r)) / sphereA r

/-- The second candidate root `(-half_b + sqrtd) / a` of `Sphere::hit`. -/
def sphereT2 (s : Sphere) (r : Ray) : ℝ :=
  (-sphereHalfB s r + Real.sqrt (sphereDisc s r)) / sphereA r

/-- A concrete scene object for evaluating the intersection code on explicit
inputs: a unit sphere five units down the z axis. -/
def demoSphere : Sphere := ⟨⟨0, 0, 5⟩, 1, Material.lambertian Color.WHITE none⟩

/-- The ray from the origin straight down the z axis; it meets `demoSphere`
at parameters 4 and 6. -/
def demoRay : Ray := ⟨⟨0, 0, 0⟩, ⟨0, 0, 1⟩⟩

/-- The ray from the origin along the y axis; it misses `demoSphere`, with a
negative intersection discriminant. -/
def demoRayY : Ray := ⟨⟨0, 0, 0⟩, ⟨0, 1, 0⟩⟩

/-- A ray whose direction `(3, -4, 0)` has norm 5, used for explicit dielectric
scatter computations (its unit direction `(3/5, -4/5, 0)` is rational). -/
def demoRay34 : Ray := ⟨⟨0, 0, 0⟩, ⟨3, -4, 0⟩⟩

/-- A ray along the x axis with a non-unit direction `(2, 0, 0)`, used for
explicit fuzz-stage computations. -/
def demoRayX : Ray := ⟨⟨0, 0, 0⟩, ⟨2, 0, 0⟩⟩

/-- The perturbed fuzz direction as the specification's sentence reads: the
base direction `d` is perturbed by `fuzz * u` and then re-normalized.  Stated
only for comparison with the code, which normalizes `d` first and never
re-normalizes the perturbed sum. -/
def specFuzzDirection (d : Vec3) (fuzz : ℝ) (u : Vec3) : Vec3 :=
  Vec3.unit (Vec3.add d (Vec3.scale fuzz u))

/-- The random draws one `Material::scatter` call can consume, passed as an
explicit oracle: `unit1` is the `Vec3::rand_unit()` of
`lambertian_distribution`, `schlick` the fresh uniform draw of `reflectance`,
and `fuzzUnit` the `Vec3::rand_unit()` of the fuzz stage. -/
structure RandDraws where
  unit1 : Vec3
  schlick : ℝ
  fuzzUnit : Vec3

/-- Source `Material::reflectance(cos_theta, ref_ratio)`: Schlick's approximation
compared against the uniform draw (passed explicitly as `draw`). -/
def reflectance (cos_theta rr draw : ℝ) : Prop :=
  let r0 := ((1 - rr) / (1 + rr)) ^ 2
  r0 + (1 - r0) * (1 - cos_theta) ^ 5 > draw

/-- The first `match self.material` of `Material::scatter` (before the fuzz
stage).  In the dielectric arm, `sin_theta = sqrt(1 - cos_theta^2)` can be the
NaN of a negative argument, modelled by `f32sqrt`: a NaN `sin_theta` makes the
total-internal-reflection comparison false.  The source's
`Vec3::refract(r_dir, normal, refraction_ratio)` call passes the precomputed
ratio to `vec3.rs`'s `refract`, which only ever uses `eta / eta_prime`; we pass
`eta` and `eta_prime` so that quotient is the same ratio. -/
def scatterBase (m : Material) (r : Ray) (normal : Vec3) (refraction_index : ℝ)
    (front_face : Prop) (rnd : RandDraws) : Scatter :=
  match m.material with
  | MaterialType.Lambertian =>
      Scatter.Scattered (Vec3.lambertian_distribution normal rnd.unit1) m.solid_color
  | MaterialType.Metal =>
      let direction := Vec3.reflect r.dir normal
      let direction := if Vec3.norm direction < 1e-8 then normal else direction
      Scatter.Scattered direction m.solid_color
  | MaterialType.Dielectric =>
      let ee : ℝ × ℝ × Vec3 :=
        if front_face then (refraction_index, m.refraction_index, normal)
        else (m.refraction_index, refraction_index, Vec3.neg normal)
      let eta := ee.1
      let eta_prime := ee.2.1
      let normal := ee.2.2
      let rr := eta / eta_prime
      let r_dir := Vec3.unit r.dir
      let cos_theta := min (Vec3.dot (Vec3.neg r_dir) normal) 1
      let sin_theta := f32sqrt (1 - cos_theta ^ 2)
      let cannot_refract :=
        (∃ st0, sin_theta = some st0 ∧ rr * st0 > 1) ∨ reflectance cos_theta rr rnd.schlick
      let direction :=
        if cannot_refract then Vec3.reflect r_dir normal
        else Vec3.refract r_dir normal eta eta_prime
      Scatter.Scattered direction m.solid_color

/-- The fuzz post-processing stage of `Material::scatter`
(`match (self.fuzz, result)`): when `fuzz` is set and the base outcome is
`Scattered`, the direction becomes `unit(direction) + fuzz * rand_unit()`, and
if that points into the surface the outcome is demoted to `Absorbed` with the
material's base color. -/
def fuzzPost (m : Material) (normal : Vec3) (rnd : RandDraws) (result : Scatter) : Scatter :=
  match m.fuzz, result with
  | some fuzz, Scatter.Scattered direction att =>
      let direction := Vec3.add (Vec3.unit direction) (Vec3.scale fuzz rnd.fuzzUnit)
      if Vec3.dot direction normal < 0 then Scatter.Absorbed m.solid_color
      else Scatter.Scattered direction att
  | _, _ => result

/-- Source `Material::scatter`: the base `match` followed by the fuzz stage. -/
def Material.scatter (m : Material) (r : Ray) (normal : Vec3) (refraction_index : ℝ)
    (front_face : Prop) (rnd : RandDraws) : Scatter :=
  fuzzPost m normal rnd (scatterBase m r normal refraction_index front_face rnd)

/-- The sky gradient returned by `ray_color` when no object is hit:
`(1 - a) * white + a * (0.5, 0.7, 1.0)` with `a = 0.5 * (unit(dir).y + 1)`. -/
def skyColor (r : Ray) : Color :=
  let dir := Vec3.unit r.dir
  let a := 0.5 * (dir.y + 1)
  Color.add (Color.smul (1 - a) ⟨⟨1, 1, 1⟩⟩) (Color.smul a ⟨⟨0.5, 0.7, 1⟩⟩)

/-- The bounce loop of `ray_color` (`main.rs`), with the running attenuation
made explicit and the per-bounce random draws supplied by the oracle `σ`
indexed by the remaining depth.  Depth `0` (the `for` loop exhausted) returns
`Color::BLACK`. -/
def rayColorLoop (world : List Sphere) (σ : ℕ → RandDraws) :
    ℕ → Ray → Color → Color
  | 0, _, _ => Color.BLACK
  | Nat.succ d, r, att =>
      match findClosestHit world r with
      | some hit =>
          match Material.scatter hit.material r hit.normal 1 hit.front_face (σ d) with
          | Scatter.Absorbed solid_color => Color.blend att solid_color
          | Scatter.Scattered direction att2 =>
              rayColorLoop world σ d (Ray.mk hit.p direction) (Color.blend att2 att)
      | none => Color.blend att (skyColor r)

/-- Source `ray_color(r, world, depth)` from `main.rs`: the loop started with a white
attenuation. -/
def ray_color (r : Ray) (world : List Sphere) (depth : ℕ) (σ : ℕ → RandDraws) : Color :=
  rayColorLoop world σ depth r Color.WHITE

/-! ### Helper lemmas about `thread_partition` -/

lemma thread_partition_fst (H T i : ℕ) : (thread_partition H i T).1 = H / T * i := by
  unfold thread_partition
  split <;> rfl

lemma thread_partition_snd_ne (H T i : ℕ) (hi : i ≠ T - 1) :
    (thread_partition H i T).2 = H / T * (i + 1) := by
  simp [thread_partition, hi]

lemma thread_partition_snd_last (H T : ℕ) : (thread_partition H (T - 1) T).2 = H := by
  simp [thread_partition]

/-! ### Helper lemmas about `Sphere.hit` -/

lemma ltOpt_some {x m : ℝ} : ltOpt x (some m) ↔ x < m := Iff.rfl

lemma ltOpt_none {x : ℝ} : ltOpt x none := trivial

lemma hitRecordAt_t (s : Sphere) (r : Ray) (root : ℝ) : (hitRecordAt s r root).t = root := rfl

lemma sphereA_nonneg (r : Ray) : 0 ≤ sphereA r := by
  unfold sphereA Vec3.dot
  exact add_nonneg (add_nonneg (mul_self_nonneg _) (mul_self_nonneg _)) (mul_self_nonneg _)

lemma hit_none_of_neg_disc {s : Sphere} {r : Ray} {lo : ℝ} {hi : Option ℝ}
    (h : sphereDisc s r < 0) : Sphere.hit s r lo hi = none := by
  unfold Sphere.hit
  have h1 : f32sqrt (sphereDisc s r) = none := by unfold f32sqrt; rw [if_pos h]
  rw [h1]
  rfl

lemma hit_none_of_a_zero {s : Sphere} {r : Ray} {lo : ℝ} {hi : Option ℝ}
    (h : sphereA r = 0) : Sphere.hit s r lo hi = none := by
  unfold Sphere.hit
  have h2 : ∀ x : ℝ, f32div x (sphereA r) = none := by
    intro x; unfold f32div; rw [if_pos h]
  cases hs : f32sqrt (sphereDisc s r) with
  | none => rfl
  | some d => simp only [Option.some_bind, h2]; rfl

lemma hit_eq_of_nonneg {s : Sphere} {r : Ray} {lo : ℝ} {hi : Option ℝ}
    (hd : 0 ≤ sphereDisc s r) (ha : sphereA r ≠ 0) :
    Sphere.hit s r lo hi =
      if lo ≤ sphereT1 s r ∧ ltOpt (sphereT1 s r) hi then some (hitRecordAt s r (sphereT1 s r))
      else if lo ≤ sphereT2 s r ∧ ltOpt (sphereT2 s r) hi then
        some (hitRecordAt s r (sphereT2 s r))
      else none := by
  unfold Sphere.hit
  have h1 : f32sqrt (sphereDisc s r) = some (Real.sqrt (sphereDisc s r)) := by
    unfold f32sqrt; rw [if_neg (not_lt.mpr hd)]
  have h2 : f32div (-(sphereHalfB s r + Real.sqrt (sphereDisc s r))) (sphereA r)
      = some (sphereT1 s r) := by
    unfold f32div sphereT1; rw [if_neg ha]
  have h3 : f32div (-sphereHalfB s r + Real.sqrt (sphereDisc s r)) (sphereA r)
      = some (sphereT2 s r) := by
    unfold f32div sphereT2; rw [if_neg ha]
  rw [h1]
  simp only [Option.some_bind, h2, h3, tryRoot]
  by_cases hc1 : lo ≤ sphereT1 s r ∧ ltOpt (sphereT1 s r) hi
  · rw [if_pos hc1, if_pos hc1]
  · rw [if_neg hc1, if_neg hc1]

lemma sphereT1_le_sphereT2 {s : Sphere} {r : Ray} (ha : sphereA r ≠ 0) :
    sphereT1 s r ≤ sphereT2 s r := by
  have hapos : 0 < sphereA r := lt_of_le_of_ne (sphereA_nonneg r) (Ne.symm ha)
  have hd0 : 0 ≤ Real.sqrt (sphereDisc s r) := Real.sqrt_nonneg _
  unfold sphereT1 sphereT2
  exact (div_le_div_iff_of_pos_right hapos).mpr (by linarith)

lemma hit_bounds {s : Sphere} {r : Ray} {lo : ℝ} {hi : Option ℝ} {rec : HitRecord}
    (h : Sphere.hit s r lo hi = some rec) : lo ≤ rec.t ∧ ltOpt rec.t hi := by
  by_cases hd : sphereDisc s r < 0
  · rw [hit_none_of_neg_disc hd] at h; exact absurd h (by simp)
  by_cases ha : sphereA r = 0
  · rw [hit_none_of_a_zero ha] at h; exact absurd h (by simp)
  push_neg at hd
  rw [hit_eq_of_nonneg hd ha] at h
  by_cases hc1 : lo ≤ sphereT1 s r ∧ ltOpt (sphereT1 s r) hi
  · rw [if_pos hc1] at h
    have hrec := Option.some.inj h
    rw [← hrec, hitRecordAt_t]
    exact hc1
  · rw [if_neg hc1] at h
    by_cases hc2 : lo ≤ sphereT2 s r ∧ ltOpt (sphereT2 s r) hi
    · rw [if_pos hc2] at h
      have hrec := Option.some.inj h
      rw [← hrec, hitRecordAt_t]
      exact hc2
    · rw [if_neg hc2] at h; exact absurd h (by simp)

/-- Widening the acceptance range to the full `0.001..∞` range does not change
a successful `Sphere::hit` result: the shrunk-bound test can only ever accept
the same root the full-range test would select. -/
lemma hit_widen {s : Sphere} {r : Ray} {lo m : ℝ} {rec : HitRecord}
    (h : Sphere.hit s r lo (some m) = some rec) : Sphere.hit s r lo none = some rec := by
  by_cases hd : sphereDisc s r < 0
  · rw [hit_none_of_neg_disc hd] at h; exact absurd h (by simp)
  by_cases ha : sphereA r = 0
  · rw [hit_none_of_a_zero ha] at h; exact absurd h (by simp)
  push_neg at hd
  rw [hit_eq_of_nonneg hd ha] at h
  rw [hit_eq_of_nonneg hd ha]
  by_cases hc1 : lo ≤ sphereT1 s r ∧ ltOpt (sphereT1 s r) (some m)
  · rw [if_pos hc1] at h
    rw [if_pos ⟨hc1.1, ltOpt_none⟩]
    exact h
  · rw [if_neg hc1] at h
    by_cases hc2 : lo ≤ sphereT2 s r ∧ ltOpt (sphereT2 s r) (some m)
    · rw [if_pos hc2] at h
      have hnl : ¬(lo ≤ sphereT1 s r ∧ ltOpt (sphereT1 s r) none) := by
        rintro ⟨hle, -⟩
        exact hc1 ⟨hle, ltOpt_some.mpr
          (lt_of_le_of_lt (sphereT1_le_sphereT2 ha) (ltOpt_some.mp hc2.2))⟩
      rw [if_neg hnl, if_pos ⟨hc2.1, ltOpt_none⟩]
      exact h
    · rw [if_neg hc2] at h; exact absurd h (by simp)

/-- Narrowing the acceptance range to an upper bound above the returned
parameter does not change a successful `Sphere::hit` result. -/
lemma hit_narrow {s : Sphere} {r : Ray} {lo m : ℝ} {rec : HitRecord}
    (h : Sphere.hit s r lo none = some rec) (hm : rec.t < m) :
    Sphere.hit s r lo (some m) = some rec := by
  by_cases hd : sphereDisc s r < 0
  · rw [hit_none_of_neg_disc hd] at h; exact absurd h (by simp)
  by_cases ha : sphereA r = 0
  · rw [hit_none_of_a_zero ha] at h; exact absurd h (by simp)
  push_neg at hd
  rw [hit_eq_of_nonneg hd ha] at h
  rw [hit_eq_of_nonneg hd ha]
  by_cases hc1 : lo ≤ sphereT1 s r ∧ ltOpt (sphereT1 s r) none
  · rw [if_pos hc1] at h
    have hrec := Option.some.inj h
    have ht1 : sphereT1 s r < m := by
      rw [← hrec, hitRecordAt_t] at hm; exact hm
    rw [if_pos ⟨hc1.1, ltOpt_some.mpr ht1⟩]
    exact h
  · rw [if_neg hc1] at h
    by_cases hc2 : lo ≤ sphereT2 s r ∧ ltOpt (sphereT2 s r) none
    · rw [if_pos hc2] at h
      have hrec := Option.some.inj h
      have ht2 : sphereT2 s r < m := by
        rw [← hrec, hitRecordAt_t] at hm; exact hm
      have hnl : ¬(lo ≤ sphereT1 s r ∧ ltOpt (sphereT1 s r) (some m)) := by
        rintro ⟨hle, -⟩
        exact hc1 ⟨hle, ltOpt_none⟩
      rw [if_neg hnl, if_pos ⟨hc2.1, ltOpt_some.mpr ht2⟩]
      exact h
    · rw [if_neg hc2] at h; exact absurd h (by simp)

/-- Inversion: every record returned by `Sphere::hit` is the record built at
its own parameter. -/
lemma hit_some_shape {s : Sphere} {r : Ray} {lo : ℝ} {hi : Option ℝ} {rec : HitRecord}
    (h : Sphere.hit s r lo hi = some rec) : rec = hitRecordAt s r rec.t := by
  by_cases hd : sphereDisc s r < 0
  · rw [hit_none_of_neg_disc hd] at h; exact absurd h (by simp)
  by_cases ha : sphereA r = 0
  · rw [hit_none_of_a_zero ha] at h; exact absurd h (by simp)
  push_neg at hd
  rw [hit_eq_of_nonneg hd ha] at h
  by_cases hc1 : lo ≤ sphereT1 s r ∧ ltOpt (sphereT1 s r) hi
  · rw [if_pos hc1] at h
    have hrec := Option.some.inj h
    rw [← hrec, hitRecordAt_t]
  · rw [if_neg hc1] at h
    by_cases hc2 : lo ≤ sphereT2 s r ∧ ltOpt (sphereT2 s r) hi
    · rw [if_pos hc2] at h
      have hrec := Option.some.inj h
      rw [← hrec, hitRecordAt_t]
    · rw [if_neg hc2] at h; exact absurd h (by simp)

/-! ### The closest-hit scan invariant (claim C1) -/

/-- Invariant of the `ray_color` scan state after the spheres in `seen` have
been tested: either no sphere seen so far hits (and the upper bound is still
infinite), or the state holds a closest full-range hit among the seen spheres
and the upper bound equals its parameter. -/
def ScanOK (r : Ray) (seen : List Sphere) (st : Option ℝ × Option HitRecord) : Prop :=
  (st = (none, none) ∧ ∀ s ∈ seen, fullHit s r = none) ∨
  (∃ rec, st = (some rec.t, some rec) ∧ (∃ s ∈ seen, fullHit s r = some rec) ∧
    ∀ s ∈ seen, ∀ rec2, fullHit s r = some rec2 → rec.t ≤ rec2.t)

lemma scanStep_ok {r : Ray} {seen : List Sphere} {st : Option ℝ × Option HitRecord}
    (hok : ScanOK r seen st) (s : Sphere) : ScanOK r (seen ++ [s]) (scanStep r st s) := by
  rcases hok with ⟨hst, hnone⟩ | ⟨rec, hst, ⟨s0, hs0, hhit0⟩, hmin⟩
  · subst hst
    unfold scanStep
    cases hh : Sphere.hit s r 0.001 none with
    | none =>
        left
        refine ⟨rfl, ?_⟩
        intro s2 hs2
        rcases List.mem_append.mp hs2 with h2 | h2
        · exact hnone s2 h2
        · rw [List.mem_singleton.mp h2]; exact hh
    | some h =>
        right
        refine ⟨h, rfl, ⟨s, List.mem_append.mpr (Or.inr (List.mem_singleton.mpr rfl)), hh⟩, ?_⟩
        intro s2 hs2 rec2 hrec2
        rcases List.mem_append.mp hs2 with h2 | h2
        · exact absurd hrec2 (by rw [hnone s2 h2]; simp)
        · rw [List.mem_singleton.mp h2] at hrec2
          unfold fullHit at hrec2
          rw [hh] at hrec2
          rw [Option.some.inj hrec2]
  · subst hst
    unfold scanStep
    cases hh : Sphere.hit s r 0.001 (some rec.t) with
    | none =>
        right
        refine ⟨rec, rfl, ⟨s0, List.mem_append.mpr (Or.inl hs0), hhit0⟩, ?_⟩
        intro s2 hs2 rec2 hrec2
        rcases List.mem_append.mp hs2 with h2 | h2
        · exact hmin s2 h2 rec2 hrec2
        · rw [List.mem_singleton.mp h2] at hrec2
          by_contra hlt
          push_neg at hlt
          have := hit_narrow hrec2 hlt
          rw [hh] at this
          exact absurd this (by simp)
    | some h =>
        right
        have hfull : fullHit s r = some h := hit_widen hh
        have hlt : h.t < rec.t := ltOpt_some.mp (hit_bounds hh).2
        refine ⟨h, rfl, ⟨s, List.mem_append.mpr (Or.inr (List.mem_singleton.mpr rfl)), hfull⟩, ?_⟩
        intro s2 hs2 rec2 hrec2
        rcases List.mem_append.mp hs2 with h2 | h2
        · exact le_trans (le_of_lt hlt) (hmin s2 h2 rec2 hrec2)
        · rw [List.mem_singleton.mp h2] at hrec2
          rw [hfull] at hrec2
          rw [Option.some.inj hrec2]

lemma scan_fold_ok (r : Ray) :
    ∀ (l seen : List Sphere) (st : Option ℝ × Option HitRecord), ScanOK r seen st →
      ScanOK r (seen ++ l) (List.foldl (scanStep r) st l) := by
  intro l
  induction l with
  | nil => intro seen st h; simpa using h
  | cons s l ih =>
      intro seen st h
      have h2 := ih (seen ++ [s]) (scanStep r st s) (scanStep_ok h s)
      simpa [List.append_assoc] using h2

lemma scan_ok (world : List Sphere) (r : Ray) :
    ScanOK r world (List.foldl (scanStep r) (none, none) world) := by
  have h0 : ScanOK r [] ((none, none) : Option ℝ × Option HitRecord) := by
    left
    exact ⟨rfl, by intro s hs; exact absurd hs (List.not_mem_nil s)⟩
  simpa using scan_fold_ok r world [] (none, none) h0

/-! ### Claims C2, C7, C3 -/

/-- C2: for every image height `H` and worker count `T ≥ 1`, the `T` row
ranges produced by `thread_partition` are pairwise disjoint and their union is
exactly `[0, H)`: every row belongs to exactly one worker's band. -/
theorem thread_partition_cover_disjoint (H T : ℕ) (hT : 1 ≤ T) :
    (∀ i j x, i < T → j < T → inBand H T x i → inBand H T x j → i = j) ∧
    (∀ x, x < H ↔ ∃ i, i < T ∧ inBand H T x i) := by
  have hpT : H / T * T ≤ H := Nat.div_mul_le_self H T
  have hhi_le : ∀ i, i < T → (thread_partition H i T).2 ≤ H := by
    intro i hiT
    by_cases hi : i = T - 1
    · subst hi; rw [thread_partition_snd_last]
    · rw [thread_partition_snd_ne H T i hi]
      exact le_trans (Nat.mul_le_mul le_rfl (by omega)) hpT
  have key : ∀ i j x, i < T → j < T → i < j → inBand H T x i → inBand H T x j → False := by
    intro i j x hiT hjT hij hbi hbj
    have hine : i ≠ T - 1 := by omega
    have h1 : x < H / T * (i + 1) := by
      have h := hbi.2; rwa [thread_partition_snd_ne H T i hine] at h
    have h2 : H / T * j ≤ x := by
      have h := hbj.1; rwa [thread_partition_fst H T j] at h
    have h3 : H / T * (i + 1) ≤ H / T * j := Nat.mul_le_mul le_rfl (by omega)
    omega
  constructor
  · intro i j x hiT hjT hbi hbj
    rcases lt_trichotomy i j with h | h | h
    · exact (key i j x hiT hjT h hbi hbj).elim
    · exact h
    · exact (key j i x hjT hiT h hbj hbi).elim
  · intro x
    constructor
    · intro hx
      by_cases hp : H / T = 0
      · refine ⟨T - 1, by omega, ?_⟩
        constructor
        · rw [thread_partition_fst]; simp [hp]
        · rw [thread_partition_snd_last]; exact hx
      · have hmulle : H / T * (x / (H / T)) ≤ x := by
          rw [Nat.mul_comm]; exact Nat.div_mul_le_self x (H / T)
        by_cases hq : x / (H / T) < T - 1
        · refine ⟨x / (H / T), lt_of_lt_of_le hq (Nat.sub_le T 1), ?_⟩
          have hne : x / (H / T) ≠ T - 1 := Nat.ne_of_lt hq
          have hmod : x % (H / T) < H / T := Nat.mod_lt x (Nat.pos_of_ne_zero hp)
          constructor
          · rw [thread_partition_fst]; exact hmulle
          · rw [thread_partition_snd_ne H T _ hne]
            have hexp : H / T * (x / (H / T) + 1) = H / T * (x / (H / T)) + H / T := by ring
            rw [hexp]
            conv_lhs => rw [← Nat.div_add_mod x (H / T)]
            exact Nat.add_lt_add_left hmod _
        · refine ⟨T - 1, by omega, ?_⟩
          have h1 : H / T * (T - 1) ≤ H / T * (x / (H / T)) :=
            Nat.mul_le_mul le_rfl (Nat.le_of_not_lt hq)
          constructor
          · rw [thread_partition_fst]; exact le_trans h1 hmulle
          · rw [thread_partition_snd_last]; exact hx
    · rintro ⟨i, hiT, hb⟩
      have h1 := hb.2
      have h2 := hhi_le i hiT
      omega

/-- Witness for C2 at `H = 5`, `T = 2`. -/
theorem thread_partition_cover_disjoint_witness :
    (∀ i j x, i < 2 → j < 2 → inBand 5 2 x i → inBand 5 2 x j → i = j) ∧
    (∀ x, x < 5 ↔ ∃ i, i < 2 ∧ inBand 5 2 x i) :=
  thread_partition_cover_disjoint 5 2 (by norm_num)

/-- C7 counterexample: at `H = 10`, `T = 4` the non-last bands have 2 rows but
the last band has 4, so two band sizes differ by more than one row. -/
theorem bandSize_gap_counterexample :
    bandSize 10 4 0 = 2 ∧ bandSize 10 4 3 = 4 ∧ ¬(bandSize 10 4 3 ≤ bandSize 10 4 0 + 1) := by
  decide

/-- C7 amended: every band except the last has exactly `H / T` rows, and the
last band has `H / T + H % T` rows — the whole remainder goes to the last band,
so band sizes can differ by up to `T - 1` rows, not one. -/
theorem bandSize_characterization (H T : ℕ) (hT : 1 ≤ T) :
    (∀ i, i < T - 1 → bandSize H T i = H / T) ∧
    bandSize H T (T - 1) = H / T + H % T := by
  constructor
  · intro i hi
    unfold bandSize
    rw [thread_partition_fst, thread_partition_snd_ne H T i (by omega)]
    have hexp : H / T * (i + 1) = H / T * i + H / T := by ring
    rw [hexp, Nat.add_sub_cancel_left]
  · unfold bandSize
    rw [thread_partition_fst, thread_partition_snd_last]
    have hdm := Nat.div_add_mod H T
    have h1 : H / T * (T - 1) + H / T = H / T * T := by
      have hTT : T - 1 + 1 = T := by omega
      calc H / T * (T - 1) + H / T = H / T * ((T - 1) + 1) := by ring
        _ = H / T * T := by rw [hTT]
    have h2 : H / T * T = T * (H / T) := Nat.mul_comm _ _
    have h3 : H = (H / T + H % T) + H / T * (T - 1) := by
      calc H = T * (H / T) + H % T := hdm.symm
        _ = H / T * T + H % T := by rw [h2]
        _ = (H / T * (T - 1) + H / T) + H % T := by rw [h1]
        _ = (H / T + H % T) + H / T * (T - 1) := by ring
    exact Nat.sub_eq_of_eq_add h3

/-- Witness for the amended C7 at `H = 10`, `T = 4`. -/
theorem bandSize_characterization_witness :
    (∀ i, i < 4 - 1 → bandSize 10 4 i = 10 / 4) ∧
    bandSize 10 4 (4 - 1) = 10 / 4 + 10 % 4 :=
  bandSize_characterization 10 4 (by norm_num)

/-- C3: with the depth bound exhausted (`depth = 0`, or more generally at the
end of the bounce loop), `ray_color` returns black for every ray, world, and
random draw — a total function, never an error. -/
theorem ray_color_depth_zero_black (r : Ray) (world : List Sphere) (σ : ℕ → RandDraws) :
    ray_color r world 0 σ = Color.BLACK ∧
    ∀ att r2, rayColorLoop world σ 0 r2 att = Color.BLACK :=
  ⟨rfl, fun _ _ => rfl⟩

/-! ### Concrete evaluations of `Sphere.hit` on the demo scene -/

lemma demoRay_A : sphereA demoRay = 1 := by
  norm_num [sphereA, Vec3.dot, demoRay]

lemma demo_halfB : sphereHalfB demoSphere demoRay = -5 := by
  norm_num [sphereHalfB, sphereOC, Vec3.dot, Vec3.sub, demoSphere, demoRay]

lemma demo_disc : sphereDisc demoSphere demoRay = 1 := by
  norm_num [sphereDisc, sphereHalfB, sphereA, sphereC, sphereOC, Vec3.dot, Vec3.sub,
    demoSphere, demoRay]

lemma demo_T1 : sphereT1 demoSphere demoRay = 4 := by
  unfold sphereT1
  rw [demo_disc, demo_halfB, demoRay_A, Real.sqrt_one]
  norm_num

lemma demo_hit (lo m : ℝ) (h1 : lo ≤ 4) (h2 : (4 : ℝ) < m) :
    Sphere.hit demoSphere demoRay lo (some m) = some (hitRecordAt demoSphere demoRay 4) := by
  rw [hit_eq_of_nonneg (by rw [demo_disc]; norm_num) (by rw [demoRay_A]; norm_num)]
  rw [if_pos ⟨by rw [demo_T1]; exact h1, by rw [demo_T1]; exact ltOpt_some.mpr h2⟩]
  rw [demo_T1]

lemma demo_hit_full :
    Sphere.hit demoSphere demoRay 0.001 none = some (hitRecordAt demoSphere demoRay 4) := by
  rw [hit_eq_of_nonneg (by rw [demo_disc]; norm_num) (by rw [demoRay_A]; norm_num)]
  rw [if_pos ⟨by rw [demo_T1]; norm_num, ltOpt_none⟩]
  rw [demo_T1]

lemma demo_discY : sphereDisc demoSphere demoRayY = -24 := by
  norm_num [sphereDisc, sphereHalfB, sphereA, sphereC, sphereOC, Vec3.dot, Vec3.sub,
    demoSphere, demoRayY]

/-! ### Claims C1, C4, C8, C10 -/

/-- C1: the world scan of `ray_color`, which tests each sphere in order with a
shrinking upper bound (initial `t_min = 0.001`, upper bound lowered to `t` after a
hit at `t`), retains a hit that is itself some sphere's full-range hit and
whose parameter is minimal among all spheres' acceptable (full-range) hits; in
particular if any sphere has an acceptable hit, the retained hit exists. -/
theorem scan_retains_closest_hit (world : List Sphere) (r : Ray) (s : Sphere)
    (rec1 : HitRecord) (hs : s ∈ world) (hhit : fullHit s r = some rec1) :
    ∃ rec, findClosestHit world r = some rec ∧
      (∃ s2 ∈ world, fullHit s2 r = some rec) ∧
      ∀ s2 ∈ world, ∀ rec2, fullHit s2 r = some rec2 → rec.t ≤ rec2.t := by
  rcases scan_ok world r with ⟨hst, hnone⟩ | ⟨rec, hst, hexists, hmin⟩
  · exact absurd hhit (by rw [hnone s hs]; simp)
  · refine ⟨rec, ?_, hexists, hmin⟩
    unfold findClosestHit
    rw [hst]

/-- Witness for C1: the demo sphere hit by the demo ray at `t = 4`. -/
theorem scan_retains_closest_hit_witness :
    ∃ rec, findClosestHit [demoSphere] demoRay = some rec ∧
      (∃ s2 ∈ [demoSphere], fullHit s2 demoRay = some rec) ∧
      ∀ s2 ∈ [demoSphere], ∀ rec2, fullHit s2 demoRay = some rec2 → rec.t ≤ rec2.t :=
  scan_retains_closest_hit [demoSphere] demoRay demoSphere (hitRecordAt demoSphere demoRay 4)
    (List.mem_singleton.mpr rfl) (by unfold fullHit; exact demo_hit_full)

/-- C4: whenever the quadratic discriminant `half_b² - a·c` is negative,
`Sphere::hit` returns no hit rather than a numeric fault — the NaN square root
never satisfies the range-containment test, so both root checks fail. -/
theorem hit_none_of_negative_discriminant (s : Sphere) (r : Ray) (lo : ℝ) (hi : Option ℝ)
    (h : sphereDisc s r < 0) : Sphere.hit s r lo hi = none :=
  hit_none_of_neg_disc h

/-- Witness for C4: the y-axis ray misses the demo sphere with
discriminant `-24 < 0`. -/
theorem hit_none_of_negative_discriminant_witness :
    Sphere.hit demoSphere demoRayY 0.001 none = none :=
  hit_none_of_negative_discriminant demoSphere demoRayY 0.001 none
    (by rw [demo_discY]; norm_num)

/-- C8 counterexample: the claim says a returned hit parameter lies strictly
inside `(t_min, t_max)` and that `t = t_min` is never accepted, but Rust's
`Range::contains` is `t_min <= t && t < t_max`: with `t_range = 4..7` the demo
sphere's root `t = 4 = t_min` is accepted. -/
theorem hit_accepts_t_min_counterexample :
    (4 : ℝ) < 7 ∧
      Option.map HitRecord.t (Sphere.hit demoSphere demoRay 4 (some 7)) = some 4 := by
  refine ⟨by norm_num, ?_⟩
  rw [demo_hit 4 7 (by norm_num) (by norm_num)]
  simp [hitRecordAt_t]

/-- C8 amended: `Sphere::hit` tries `t₁ = (-half_b - √disc)/a` first and only
on failure `t₂ = (-half_b + √disc)/a`; any returned hit's parameter is one of
the two roots and lies in the half-open range `[t_min, t_max)` — `t = t_min`
is accepted, `t = t_max` is not. -/
theorem hit_half_open_root_selection (s : Sphere) (r : Ray) (lo m : ℝ) (rec : HitRecord)
    (h : Sphere.hit s r lo (some m) = some rec) :
    (lo ≤ rec.t ∧ rec.t < m) ∧ (rec.t = sphereT1 s r ∨ rec.t = sphereT2 s r) ∧
      (lo ≤ sphereT1 s r ∧ sphereT1 s r < m → rec.t = sphereT1 s r) := by
  by_cases hd : sphereDisc s r < 0
  · rw [hit_none_of_neg_disc hd] at h; exact absurd h (by simp)
  by_cases ha : sphereA r = 0
  · rw [hit_none_of_a_zero ha] at h; exact absurd h (by simp)
  push_neg at hd
  rw [hit_eq_of_nonneg hd ha] at h
  by_cases hc1 : lo ≤ sphereT1 s r ∧ ltOpt (sphereT1 s r) (some m)
  · rw [if_pos hc1] at h
    have hrec := Option.some.inj h
    have ht : rec.t = sphereT1 s r := by rw [← hrec, hitRecordAt_t]
    exact ⟨by rw [ht]; exact ⟨hc1.1, ltOpt_some.mp hc1.2⟩, Or.inl ht, fun _ => ht⟩
  · rw [if_neg hc1] at h
    by_cases hc2 : lo ≤ sphereT2 s r ∧ ltOpt (sphereT2 s r) (some m)
    · rw [if_pos hc2] at h
      have hrec := Option.some.inj h
      have ht : rec.t = sphereT2 s r := by rw [← hrec, hitRecordAt_t]
      refine ⟨by rw [ht]; exact ⟨hc2.1, ltOpt_some.mp hc2.2⟩, Or.inr ht, fun hcc => ?_⟩
      exact absurd ⟨hcc.1, ltOpt_some.mpr hcc.2⟩ hc1
    · rw [if_neg hc2] at h; exact absurd h (by simp)

/-- Witness for the amended C8 at `t_range = 3..7` on the demo sphere. -/
theorem hit_half_open_root_selection_witness :
    ((3 : ℝ) ≤ (hitRecordAt demoSphere demoRay 4).t ∧ (hitRecordAt demoSphere demoRay 4).t < 7) ∧
      ((hitRecordAt demoSphere demoRay 4).t = sphereT1 demoSphere demoRay ∨
        (hitRecordAt demoSphere demoRay 4).t = sphereT2 demoSphere demoRay) ∧
      ((3 : ℝ) ≤ sphereT1 demoSphere demoRay ∧ sphereT1 demoSphere demoRay < 7 →
        (hitRecordAt demoSphere demoRay 4).t = sphereT1 demoSphere demoRay) :=
  hit_half_open_root_selection demoSphere demoRay 3 7 (hitRecordAt demoSphere demoRay 4)
    (demo_hit 3 7 (by norm_num) (by norm_num))

/-- C10: every record returned by `Sphere::hit` stores the geometric normal
`(1/radius) * (p - center)` unchanged — it is never reoriented against the
incoming ray: when `front_face` is false, the stored normal points along the
ray direction (`dot(ray.dir, normal) ≥ 0`). -/
theorem hit_normal_geometric (s : Sphere) (r : Ray) (lo : ℝ) (hi : Option ℝ)
    (rec : HitRecord) (hrad : s.radius ≠ 0) (h : Sphere.hit s r lo hi = some rec) :
    rec.normal = Vec3.scale (1 / s.radius) (Vec3.sub rec.p s.center) ∧
      (¬rec.front_face → 0 ≤ Vec3.dot r.dir rec.normal) := by
  have hshape := hit_some_shape h
  rw [hshape]
  constructor
  · rfl
  · intro hff
    exact not_lt.mp hff

/-! ### Vector lemmas for the material claims -/

lemma dot_self_nonneg (v : Vec3) : 0 ≤ Vec3.dot v v := by
  unfold Vec3.dot
  exact add_nonneg (add_nonneg (mul_self_nonneg _) (mul_self_nonneg _)) (mul_self_nonneg _)

lemma dot_scale_scale (a b : ℝ) (v u : Vec3) :
    Vec3.dot (Vec3.scale a v) (Vec3.scale b u) = a * b * Vec3.dot v u := by
  unfold Vec3.dot Vec3.scale
  ring

lemma norm_sq (v : Vec3) : Vec3.dot v v = Vec3.norm v ^ 2 := by
  unfold Vec3.norm
  rw [Real.sq_sqrt (dot_self_nonneg v)]

lemma dot_unit_self (v : Vec3) (h : Vec3.norm v ≠ 0) :
    Vec3.dot (Vec3.unit v) (Vec3.unit v) = 1 := by
  unfold Vec3.unit
  rw [dot_scale_scale, norm_sq]
  field_simp
  ring

lemma dot_neg_left (v u : Vec3) : Vec3.dot (Vec3.neg v) u = -Vec3.dot v u := by
  unfold Vec3.neg Vec3.scale Vec3.dot
  ring

lemma dot_neg_neg (n : Vec3) : Vec3.dot (Vec3.neg n) (Vec3.neg n) = Vec3.dot n n := by
  unfold Vec3.neg Vec3.scale Vec3.dot
  ring

lemma dot_abs_le_one (u n : Vec3) (hu : Vec3.dot u u = 1) (hn : Vec3.dot n n = 1) :
    -1 ≤ Vec3.dot u n ∧ Vec3.dot u n ≤ 1 := by
  unfold Vec3.dot at hu hn ⊢
  constructor
  · nlinarith [sq_nonneg (u.x + n.x), sq_nonneg (u.y + n.y), sq_nonneg (u.z + n.z)]
  · nlinarith [sq_nonneg (u.x - n.x), sq_nonneg (u.y - n.y), sq_nonneg (u.z - n.z)]

/-- For unit `r` and unit `n`, `Vec3::refract` with `eta = eta_prime` returns
`r` unchanged: the relative index is 1, so the ray is not bent. -/
lemma refract_ratio_one (u n : Vec3) (hu : Vec3.dot u u = 1) (hn : Vec3.dot n n = 1) :
    Vec3.refract u n 1 1 = u := by
  have hb := dot_abs_le_one u n hu hn
  unfold Vec3.refract
  have hclamp : max (min (Vec3.dot (Vec3.neg u) n) 1) (-1) = Vec3.dot (Vec3.neg u) n := by
    rw [dot_neg_left, min_eq_left (by linarith), max_eq_left (by linarith)]
  simp only [hclamp]
  set c := Vec3.dot (Vec3.neg u) n with hc
  have hdotun : Vec3.dot u n = -c := by rw [hc, dot_neg_left]; ring
  have hP : Vec3.dot (Vec3.scale ((1:ℝ)/1) (Vec3.add u (Vec3.scale c n)))
      (Vec3.scale ((1:ℝ)/1) (Vec3.add u (Vec3.scale c n))) = 1 - c ^ 2 := by
    unfold Vec3.dot Vec3.scale Vec3.add
    unfold Vec3.dot at hu hn hdotun
    linear_combination hu + 2 * c * hdotun + c ^ 2 * hn
  rw [hP]
  have habs : Real.sqrt |1 - (1 - c ^ 2)| = |c| := by
    rw [show |1 - (1 - c ^ 2)| = c ^ 2 by rw [abs_of_nonneg] <;> ring_nf <;> positivity]
    exact Real.sqrt_sq_eq_abs c
  rw [habs]
  obtain ⟨ux, uy, uz⟩ := u
  obtain ⟨nx, ny, nz⟩ := n
  by_cases hcpos : c > 0
  · rw [if_pos hcpos, abs_of_pos hcpos]
    simp only [Vec3.add, Vec3.scale, Vec3.mk.injEq]
    refine ⟨by ring, by ring, by ring⟩
  · rw [if_neg hcpos, abs_of_nonpos (not_lt.mp hcpos)]
    simp only [Vec3.add, Vec3.scale, Vec3.mk.injEq]
    refine ⟨by ring, by ring, by ring⟩

/-! ### Dielectric scatter branch lemmas -/

/-- When the Schlick reflectance draw triggers, a fuzz-free dielectric with
index 1 (against external index 1) reflects the unit incoming direction. -/
lemma dielectric_scatter_reflects (r : Ray) (n : Vec3) (ff : Prop) (rnd : RandDraws)
    (hrefl : reflectance
      (min (Vec3.dot (Vec3.neg (Vec3.unit r.dir)) (if ff then n else Vec3.neg n)) 1) 1
      rnd.schlick) :
    Material.scatter (Material.dielectric 1 none) r n 1 ff rnd =
      Scatter.Scattered (Vec3.reflect (Vec3.unit r.dir) (if ff then n else Vec3.neg n))
        Color.WHITE := by
  have hsc : Material.scatter (Material.dielectric 1 none) r n 1 ff rnd =
      scatterBase (Material.dielectric 1 none) r n 1 ff rnd := rfl
  rw [hsc]
  unfold scatterBase
  simp only [Material.dielectric]
  by_cases hff : ff
  · rw [if_pos hff] at hrefl ⊢
    rw [if_pos (Or.inr (by simpa using hrefl))]
    rw [if_pos hff]
  · rw [if_neg hff] at hrefl ⊢
    rw [if_pos (Or.inr (by simpa using hrefl))]
    rw [if_neg hff]

/-- Characterization of the fuzz stage on a `Scattered` base outcome, shared
by the fuzz-related results below. -/
lemma scatter_with_fuzz (m : Material) (r : Ray) (n : Vec3) (rie : ℝ)
    (ff : Prop) (rnd : RandDraws) (f : ℝ) (d : Vec3) (att : Color)
    (hf : m.fuzz = some f)
    (hbase : scatterBase m r n rie ff rnd = Scatter.Scattered d att) :
    Material.scatter m r n rie ff rnd =
      (if Vec3.dot (Vec3.add (Vec3.unit d) (Vec3.scale f rnd.fuzzUnit)) n < 0
       then Scatter.Absorbed m.solid_color
       else Scatter.Scattered (Vec3.add (Vec3.unit d) (Vec3.scale f rnd.fuzzUnit)) att) := by
  unfold Material.scatter
  rw [hbase]
  unfold fuzzPost
  rw [hf]

/-! ### Claims C5, C6, C9 -/

/-- C5 counterexample: a dielectric with `refraction_index = 1.0` does not
always pass rays through undeviated — with incoming direction `(3, -4, 0)`
(unit direction `(3/5, -4/5, 0)`), normal `(0, 1, 0)` and Schlick draw
`1/10000 < (1 - 4/5)^5`, the ray is mirror-reflected to `(3/5, 4/5, 0)`. -/
theorem dielectric_passthrough_counterexample :
    Material.scatter (Material.dielectric 1 none) demoRay34 ⟨0, 1, 0⟩ 1 True
        ⟨⟨0, 0, 0⟩, 1 / 10000, ⟨0, 0, 0⟩⟩ =
      Scatter.Scattered ⟨3 / 5, 4 / 5, 0⟩ Color.WHITE ∧
    Vec3.unit demoRay34.dir = ⟨3 / 5, -4 / 5, 0⟩ ∧
    (⟨3 / 5, 4 / 5, 0⟩ : Vec3) ≠ ⟨3 / 5, -4 / 5, 0⟩ := by
  have h25 : Real.sqrt (25 : ℝ) = 5 := by
    rw [show (25 : ℝ) = 5 ^ 2 by norm_num, Real.sqrt_sq (by norm_num : (0:ℝ) ≤ 5)]
  have hdot : Vec3.dot ⟨3, -4, 0⟩ ⟨3, -4, 0⟩ = (25 : ℝ) := by norm_num [Vec3.dot]
  have hunit : Vec3.unit demoRay34.dir = ⟨3 / 5, -4 / 5, 0⟩ := by
    show Vec3.unit ⟨3, -4, 0⟩ = _
    unfold Vec3.unit Vec3.norm
    rw [hdot, h25]
    norm_num [Vec3.scale]
  have hrefl : reflectance (4 / 5) 1 (1 / 10000) := by
    unfold reflectance
    norm_num
  refine ⟨?_, hunit, ?_⟩
  · rw [dielectric_scatter_reflects demoRay34 ⟨0, 1, 0⟩ True ⟨⟨0, 0, 0⟩, 1 / 10000, ⟨0, 0, 0⟩⟩
      (by
        rw [if_pos trivial, hunit]
        rw [show Vec3.dot (Vec3.neg ⟨3 / 5, -4 / 5, 0⟩) ⟨0, 1, 0⟩ = 4 / 5 by
          norm_num [Vec3.dot, Vec3.neg, Vec3.scale]]
        rw [min_eq_left (by norm_num : (4:ℝ) / 5 ≤ 1)]
        exact hrefl)]
    rw [if_pos trivial, hunit]
    rw [show Vec3.reflect (⟨3 / 5, -4 / 5, 0⟩ : Vec3) ⟨0, 1, 0⟩ = ⟨3 / 5, 4 / 5, 0⟩ by
      norm_num [Vec3.reflect, Vec3.dot, Vec3.scale, Vec3.sub]]
  · intro h
    have := (Vec3.mk.injEq _ _ _ _ _ _).mp h
    norm_num at this

/-- C5 amended: a fuzz-free dielectric with `refraction_index = 1.0` (against
the external index 1.0 used by `ray_color`) passes the ray through undeviated
whenever the Schlick reflectance draw does not trigger reflection; at head-on
incidence the draw can never trigger, but at oblique incidence it can, in
which case the direction is the mirror reflection instead. -/
theorem dielectric_unit_index_passthrough (r : Ray) (n : Vec3) (ff : Prop) (rnd : RandDraws)
    (hn : Vec3.norm n = 1) (hr : Vec3.norm r.dir ≠ 0)
    (hdraw : ¬ reflectance
      (min (Vec3.dot (Vec3.neg (Vec3.unit r.dir)) (if ff then n else Vec3.neg n)) 1) 1
      rnd.schlick) :
    Material.scatter (Material.dielectric 1 none) r n 1 ff rnd =
      Scatter.Scattered (Vec3.unit r.dir) Color.WHITE := by
  have hnn : Vec3.dot n n = 1 := by
    rw [norm_sq, hn]; norm_num
  have hru : Vec3.dot (Vec3.unit r.dir) (Vec3.unit r.dir) = 1 := dot_unit_self r.dir hr
  have hsc : Material.scatter (Material.dielectric 1 none) r n 1 ff rnd =
      scatterBase (Material.dielectric 1 none) r n 1 ff rnd := rfl
  rw [hsc]
  unfold scatterBase
  simp only [Material.dielectric]
  by_cases hff : ff
  · rw [if_pos hff] at hdraw
    rw [if_pos hff]
    have hb := dot_abs_le_one (Vec3.unit r.dir) n hru hnn
    have hc1 : Vec3.dot (Vec3.neg (Vec3.unit r.dir)) n ≤ 1 := by
      rw [dot_neg_left]; linarith [hb.1]
    have hcm1 : -1 ≤ Vec3.dot (Vec3.neg (Vec3.unit r.dir)) n := by
      rw [dot_neg_left]; linarith [hb.2]
    have hmin : min (Vec3.dot (Vec3.neg (Vec3.unit r.dir)) n) 1 =
        Vec3.dot (Vec3.neg (Vec3.unit r.dir)) n := min_eq_left hc1
    simp only [hmin]
    set c := Vec3.dot (Vec3.neg (Vec3.unit r.dir)) n with hcdef
    have h1c : 0 ≤ 1 - c ^ 2 := by nlinarith
    have hsqrt : f32sqrt (1 - c ^ 2) = some (Real.sqrt (1 - c ^ 2)) := by
      unfold f32sqrt; rw [if_neg (not_lt.mpr h1c)]
    have htir : ¬((∃ st0, f32sqrt (1 - c ^ 2) = some st0 ∧ 1 / 1 * st0 > 1) ∨
        reflectance c (1 / 1) rnd.schlick) := by
      rintro (⟨st0, hst, hgt⟩ | hrf)
      · rw [hsqrt] at hst
        have hst0 : st0 = Real.sqrt (1 - c ^ 2) := (Option.some.inj hst).symm
        rw [hst0] at hgt
        have hle : Real.sqrt (1 - c ^ 2) ≤ 1 := Real.sqrt_le_one.mpr (by nlinarith)
        rw [one_div_one, one_mul] at hgt
        linarith
      · rw [one_div_one] at hrf
        exact hdraw (by rw [hmin]; exact hrf)
    rw [if_neg htir]
    rw [refract_ratio_one (Vec3.unit r.dir) n hru hnn]
  · rw [if_neg hff] at hdraw
    rw [if_neg hff]
    have hnn2 : Vec3.dot (Vec3.neg n) (Vec3.neg n) = 1 := by rw [dot_neg_neg]; exact hnn
    have hb := dot_abs_le_one (Vec3.unit r.dir) (Vec3.neg n) hru hnn2
    have hc1 : Vec3.dot (Vec3.neg (Vec3.unit r.dir)) (Vec3.neg n) ≤ 1 := by
      rw [dot_neg_left]; linarith [hb.1]
    have hcm1 : -1 ≤ Vec3.dot (Vec3.neg (Vec3.unit r.dir)) (Vec3.neg n) := by
      rw [dot_neg_left]; linarith [hb.2]
    have hmin : min (Vec3.dot (Vec3.neg (Vec3.unit r.dir)) (Vec3.neg n)) 1 =
        Vec3.dot (Vec3.neg (Vec3.unit r.dir)) (Vec3.neg n) := min_eq_left hc1
    simp only [hmin]
    set c := Vec3.dot (Vec3.neg (Vec3.unit r.dir)) (Vec3.neg n) with hcdef
    have h1c : 0 ≤ 1 - c ^ 2 := by nlinarith
    have hsqrt : f32sqrt (1 - c ^ 2) = some (Real.sqrt (1 - c ^ 2)) := by
      unfold f32sqrt; rw [if_neg (not_lt.mpr h1c)]
    have htir : ¬((∃ st0, f32sqrt (1 - c ^ 2) = some st0 ∧ 1 / 1 * st0 > 1) ∨
        reflectance c (1 / 1) rnd.schlick) := by
      rintro (⟨st0, hst, hgt⟩ | hrf)
      · rw [hsqrt] at hst
        have hst0 : st0 = Real.sqrt (1 - c ^ 2) := (Option.some.inj hst).symm
        rw [hst0] at hgt
        have hle : Real.sqrt (1 - c ^ 2) ≤ 1 := Real.sqrt_le_one.mpr (by nlinarith)
        rw [one_div_one, one_mul] at hgt
        linarith
      · rw [one_div_one] at hrf
        exact hdraw (by rw [hmin]; exact hrf)
    rw [if_neg htir]
    rw [refract_ratio_one (Vec3.unit r.dir) (Vec3.neg n) hru hnn2]

/-- Witness for the amended C5: ray `(3, -4, 0)` against normal `(0, 1, 0)`
with Schlick draw `1/2`, which does not trigger reflection. -/
theorem dielectric_unit_index_passthrough_witness :
    Material.scatter (Material.dielectric 1 none) demoRay34 ⟨0, 1, 0⟩ 1 True
        ⟨⟨0, 0, 0⟩, 1 / 2, ⟨0, 0, 0⟩⟩ =
      Scatter.Scattered (Vec3.unit demoRay34.dir) Color.WHITE := by
  have h25 : Real.sqrt (25 : ℝ) = 5 := by
    rw [show (25 : ℝ) = 5 ^ 2 by norm_num, Real.sqrt_sq (by norm_num : (0:ℝ) ≤ 5)]
  have hdot : Vec3.dot ⟨3, -4, 0⟩ ⟨3, -4, 0⟩ = (25 : ℝ) := by norm_num [Vec3.dot]
  have hunit : Vec3.unit demoRay34.dir = ⟨3 / 5, -4 / 5, 0⟩ := by
    show Vec3.unit ⟨3, -4, 0⟩ = _
    unfold Vec3.unit Vec3.norm
    rw [hdot, h25]
    norm_num [Vec3.scale]
  apply dielectric_unit_index_passthrough demoRay34 ⟨0, 1, 0⟩ True
    ⟨⟨0, 0, 0⟩, 1 / 2, ⟨0, 0, 0⟩⟩
  · show Real.sqrt (Vec3.dot ⟨0, 1, 0⟩ ⟨0, 1, 0⟩) = 1
    rw [show Vec3.dot (⟨0, 1, 0⟩ : Vec3) ⟨0, 1, 0⟩ = 1 by norm_num [Vec3.dot]]
    exact Real.sqrt_one
  · show Real.sqrt (Vec3.dot demoRay34.dir demoRay34.dir) ≠ 0
    rw [show Vec3.dot demoRay34.dir demoRay34.dir = (25:ℝ) from hdot, h25]
    norm_num
  · rw [if_pos trivial, hunit]
    rw [show Vec3.dot (Vec3.neg ⟨3 / 5, -4 / 5, 0⟩) ⟨0, 1, 0⟩ = 4 / 5 by
      norm_num [Vec3.dot, Vec3.neg, Vec3.scale]]
    rw [min_eq_left (by norm_num : (4:ℝ) / 5 ≤ 1)]
    unfold reflectance
    norm_num

/-- C6 amended: when `fuzz` is set and the base outcome is `Scattered` with
direction `d`, the returned direction is `unit(d) + fuzz * rand_unit` — the
base direction is normalized first and the perturbed sum is not re-normalized;
if the perturbed direction points into the surface (`dot < 0`), the outcome is
demoted to `Absorbed` with the material's base color. -/
theorem fuzz_perturbs_normalized_base (m : Material) (r : Ray) (n : Vec3) (rie : ℝ)
    (ff : Prop) (rnd : RandDraws) (f : ℝ) (d : Vec3) (att : Color)
    (hf : m.fuzz = some f)
    (hbase : scatterBase m r n rie ff rnd = Scatter.Scattered d att) :
    Material.scatter m r n rie ff rnd =
      (if Vec3.dot (Vec3.add (Vec3.unit d) (Vec3.scale f rnd.fuzzUnit)) n < 0
       then Scatter.Absorbed m.solid_color
       else Scatter.Scattered (Vec3.add (Vec3.unit d) (Vec3.scale f rnd.fuzzUnit)) att) :=
  scatter_with_fuzz m r n rie ff rnd f d att hf hbase

/-- Witness for the amended C6: metal with fuzz 1 and perturbation `(0, 1, 0)`
on ray `(2, 0, 0)` against normal `(0, 1, 0)`. -/
theorem fuzz_perturbs_normalized_base_witness :
    Material.scatter (Material.metal ⟨⟨0.8, 0.8, 0.8⟩⟩ (some 1)) demoRayX ⟨0, 1, 0⟩ 1 True
        ⟨⟨0, 0, 0⟩, 0, ⟨0, 1, 0⟩⟩ =
      (if Vec3.dot (Vec3.add (Vec3.unit ⟨2, 0, 0⟩)
            (Vec3.scale 1 (RandDraws.mk ⟨0, 0, 0⟩ 0 ⟨0, 1, 0⟩).fuzzUnit)) ⟨0, 1, 0⟩ < 0
       then Scatter.Absorbed (Material.metal ⟨⟨0.8, 0.8, 0.8⟩⟩ (some 1)).solid_color
       else Scatter.Scattered (Vec3.add (Vec3.unit ⟨2, 0, 0⟩)
            (Vec3.scale 1 (RandDraws.mk ⟨0, 0, 0⟩ 0 ⟨0, 1, 0⟩).fuzzUnit)) ⟨⟨0.8, 0.8, 0.8⟩⟩) := by
  apply fuzz_perturbs_normalized_base (Material.metal ⟨⟨0.8, 0.8, 0.8⟩⟩ (some 1)) demoRayX
    ⟨0, 1, 0⟩ 1 True ⟨⟨0, 0, 0⟩, 0, ⟨0, 1, 0⟩⟩ 1 ⟨2, 0, 0⟩ ⟨⟨0.8, 0.8, 0.8⟩⟩ rfl
  unfold scatterBase
  simp only [Material.metal]
  have hrefl : Vec3.reflect demoRayX.dir ⟨0, 1, 0⟩ = ⟨2, 0, 0⟩ := by
    show Vec3.reflect ⟨2, 0, 0⟩ ⟨0, 1, 0⟩ = _
    norm_num [Vec3.reflect, Vec3.dot, Vec3.scale, Vec3.sub]
  rw [hrefl]
  have hnorm : Vec3.norm ⟨2, 0, 0⟩ = 2 := by
    unfold Vec3.norm
    rw [show Vec3.dot (⟨2, 0, 0⟩ : Vec3) ⟨2, 0, 0⟩ = 4 by norm_num [Vec3.dot]]
    rw [show (4 : ℝ) = 2 ^ 2 by norm_num, Real.sqrt_sq (by norm_num : (0:ℝ) ≤ 2)]
  rw [if_neg (by rw [hnorm]; norm_num)]

/-- C6 counterexample: the claim reads the perturbation as applied to `d` and
re-normalized afterwards (`unit(d + fuzz*u)`), but the code computes
`unit(d) + fuzz*u`: for base direction `(2, 0, 0)`, fuzz 1, perturbation
`(0, 1, 0)` the code returns `(1, 1, 0)` while the claim's formula gives
`(2/√5, 1/√5, 0) ≠ (1, 1, 0)`. -/
theorem fuzz_direction_counterexample :
    Material.scatter (Material.metal ⟨⟨0.8, 0.8, 0.8⟩⟩ (some 1)) demoRayX ⟨0, 1, 0⟩ 1 True
        ⟨⟨0, 0, 0⟩, 0, ⟨0, 1, 0⟩⟩ =
      Scatter.Scattered ⟨1, 1, 0⟩ ⟨⟨0.8, 0.8, 0.8⟩⟩ ∧
    specFuzzDirection ⟨2, 0, 0⟩ 1 ⟨0, 1, 0⟩ ≠ ⟨1, 1, 0⟩ := by
  have hnorm : Vec3.norm ⟨2, 0, 0⟩ = 2 := by
    unfold Vec3.norm
    rw [show Vec3.dot (⟨2, 0, 0⟩ : Vec3) ⟨2, 0, 0⟩ = 4 by norm_num [Vec3.dot]]
    rw [show (4 : ℝ) = 2 ^ 2 by norm_num, Real.sqrt_sq (by norm_num : (0:ℝ) ≤ 2)]
  have hunit2 : Vec3.unit ⟨2, 0, 0⟩ = ⟨1, 0, 0⟩ := by
    unfold Vec3.unit
    rw [hnorm]
    norm_num [Vec3.scale]
  constructor
  · rw [scatter_with_fuzz (Material.metal ⟨⟨0.8, 0.8, 0.8⟩⟩ (some 1)) demoRayX
      ⟨0, 1, 0⟩ 1 True ⟨⟨0, 0, 0⟩, 0, ⟨0, 1, 0⟩⟩ 1 ⟨2, 0, 0⟩ ⟨⟨0.8, 0.8, 0.8⟩⟩ rfl ?_]
    · rw [hunit2]
      rw [show Vec3.add (⟨1, 0, 0⟩ : Vec3) (Vec3.scale 1 (RandDraws.mk ⟨0, 0, 0⟩ 0
          ⟨0, 1, 0⟩).fuzzUnit) = ⟨1, 1, 0⟩ by norm_num [Vec3.add, Vec3.scale]]
      rw [if_neg (by norm_num [Vec3.dot])]
    · unfold scatterBase
      simp only [Material.metal]
      have hrefl : Vec3.reflect demoRayX.dir ⟨0, 1, 0⟩ = ⟨2, 0, 0⟩ := by
        show Vec3.reflect ⟨2, 0, 0⟩ ⟨0, 1, 0⟩ = _
        norm_num [Vec3.reflect, Vec3.dot, Vec3.scale, Vec3.sub]
      rw [hrefl]
      rw [if_neg (by rw [hnorm]; norm_num)]
  · intro h
    have hd5 : Vec3.dot (Vec3.add ⟨2, 0, 0⟩ (Vec3.scale 1 ⟨0, 1, 0⟩))
        (Vec3.add ⟨2, 0, 0⟩ (Vec3.scale 1 ⟨0, 1, 0⟩)) = 5 := by
      norm_num [Vec3.dot, Vec3.add, Vec3.scale]
    have hs5 : (2 : ℝ) ≤ Real.sqrt 5 := by
      rw [show (2 : ℝ) = Real.sqrt 4 by
        rw [show (4 : ℝ) = 2 ^ 2 by norm_num, Real.sqrt_sq (by norm_num : (0:ℝ) ≤ 2)]]
      exact Real.sqrt_le_sqrt (by norm_num)
    unfold specFuzzDirection Vec3.unit Vec3.norm at h
    rw [hd5] at h
    have hy := ((Vec3.mk.injEq _ _ _ _ _ _).mp h).2.1
    have hyval : 1 / Real.sqrt 5 * (Vec3.add ⟨2, 0, 0⟩ (Vec3.scale 1 ⟨0, 1, 0⟩)).y = 1 := hy
    have hyy : (Vec3.add (⟨2, 0, 0⟩ : Vec3) (Vec3.scale 1 ⟨0, 1, 0⟩)).y = 1 := by
      norm_num [Vec3.add, Vec3.scale]
    rw [hyy, mul_one] at hyval
    have hpos : (0 : ℝ) < Real.sqrt 5 := lt_of_lt_of_le (by norm_num) hs5
    have : Real.sqrt 5 = 1 := by
      field_simp at hyval
      linarith
    linarith

/-- C9 counterexample: the bytes are produced by a truncating cast, not
rounding — for the pre-clamped channel value `1/4` the code emits
`floor(255.999 * 0.5) = 127`, while `round(255.999 * 0.5) = 128`. -/
theorem colorBytes_round_counterexample :
    colorBytes ⟨⟨1 / 4, 1 / 4, 1 / 4⟩⟩ = (127, 127, 127) ∧
    specRoundByte (1 / 4) = 128 := by
  have hsq : Real.sqrt (1 / 4 : ℝ) = 1 / 2 := by
    rw [show (1 / 4 : ℝ) = (1 / 2) ^ 2 by norm_num, Real.sqrt_sq (by norm_num : (0:ℝ) ≤ 1 / 2)]
  have hfloor : ⌊(255.999 * (1 / 2 : ℝ))⌋ = 127 := by
    rw [Int.floor_eq_iff]
    constructor <;> norm_num
  constructor
  · unfold colorBytes asU8 linera_to_gamma
    rw [hsq, hfloor]
    have h127 : Int.toNat 127 = 127 := rfl
    norm_num [h127]
  · unfold specRoundByte
    rw [hsq, round_eq]
    rw [show (255.999 * (1 / 2 : ℝ) + 1 / 2) = 128.4995 by norm_num]
    rw [Int.floor_eq_iff]
    constructor <;> norm_num

/-- C9 amended: for channels pre-clamped to `[0, 1]`, each emitted byte is the
truncation `⌊255.999 * sqrt(linear_channel)⌋` (not the rounding), and each
byte is at most 255. -/
theorem colorBytes_floor_gamma (c : Color)
    (h : 0 ≤ c.rgb.x ∧ c.rgb.x ≤ 1 ∧ 0 ≤ c.rgb.y ∧ c.rgb.y ≤ 1 ∧ 0 ≤ c.rgb.z ∧ c.rgb.z ≤ 1) :
    colorBytes c = (Int.toNat ⌊255.999 * Real.sqrt c.rgb.x⌋,
        Int.toNat ⌊255.999 * Real.sqrt c.rgb.y⌋,
        Int.toNat ⌊255.999 * Real.sqrt c.rgb.z⌋) ∧
      (colorBytes c).1 ≤ 255 ∧ (colorBytes c).2.1 ≤ 255 ∧ (colorBytes c).2.2 ≤ 255 := by
  obtain ⟨hx0, hx1, hy0, hy1, hz0, hz1⟩ := h
  have key : ∀ v : ℝ, v ≤ 1 → asU8 (255.999 * linera_to_gamma v) =
      Int.toNat ⌊255.999 * Real.sqrt v⌋ ∧ asU8 (255.999 * linera_to_gamma v) ≤ 255 := by
    intro v hv1
    have hs1 : Real.sqrt v ≤ 1 := Real.sqrt_le_one.mpr hv1
    have hle : (255.999 : ℝ) * Real.sqrt v ≤ 255.999 := by nlinarith [Real.sqrt_nonneg v]
    have hfle : ⌊(255.999 : ℝ) * Real.sqrt v⌋ ≤ 255 := by
      have h2 : ⌊(255.999 : ℝ) * Real.sqrt v⌋ ≤ ⌊(255.999 : ℝ)⌋ := Int.floor_le_floor hle
      have h3 : ⌊(255.999 : ℝ)⌋ = 255 := by
        rw [Int.floor_eq_iff]
        constructor <;> norm_num
      rw [h3] at h2
      exact h2
    have htn : Int.toNat ⌊(255.999 : ℝ) * Real.sqrt v⌋ ≤ 255 := by
      rcases le_or_lt ⌊(255.999 : ℝ) * Real.sqrt v⌋ 0 with h4 | h4
      · rw [Int.toNat_of_nonpos h4]; norm_num
      · have := Int.toNat_le_toNat hfle
        simpa using this
    unfold asU8 linera_to_gamma
    exact ⟨min_eq_right htn, le_trans (min_le_right _ _) htn⟩
  have kx := key c.rgb.x hx1
  have ky := key c.rgb.y hy1
  have kz := key c.rgb.z hz1
  unfold colorBytes at kx ky kz ⊢
  refine ⟨?_, ?_, ?_, ?_⟩
  · rw [kx.1, ky.1, kz.1]
  · exact kx.2
  · exact ky.2
  · exact kz.2

/-- Witness for the amended C9 at the fully-white color. -/
theorem colorBytes_floor_gamma_witness :
    colorBytes Color.WHITE = (Int.toNat ⌊255.999 * Real.sqrt Color.WHITE.rgb.x⌋,
        Int.toNat ⌊255.999 * Real.sqrt Color.WHITE.rgb.y⌋,
        Int.toNat ⌊255.999 * Real.sqrt Color.WHITE.rgb.z⌋) ∧
      (colorBytes Color.WHITE).1 ≤ 255 ∧ (colorBytes Color.WHITE).2.1 ≤ 255 ∧
      (colorBytes Color.WHITE).2.2 ≤ 255 :=
  colorBytes_floor_gamma Color.WHITE (by norm_num [Color.WHITE])

/-- Witness for C10 on the demo sphere's hit at `t = 4`. -/
theorem hit_normal_geometric_witness :
    (hitRecordAt demoSphere demoRay 4).normal =
      Vec3.scale (1 / demoSphere.radius)
        (Vec3.sub (hitRecordAt demoSphere demoRay 4).p demoSphere.center) ∧
      (¬(hitRecordAt demoSphere demoRay 4).front_face →
        0 ≤ Vec3.dot demoRay.dir (hitRecordAt demoSphere demoRay 4).normal) :=
  hit_normal_geometric demoSphere demoRay 0.001 none (hitRecordAt demoSphere demoRay 4)
    (by norm_num [demoSphere]) demo_hit_full

end
